import Mathlib

/-!
Verification development for the distributed mutual-exclusion repository
(`src/modules/Server/Lock/distributedLock.py`, `src/modules/Server/peerList.py`,
`src/lab5/mutexPeer.py`).

The Python code keeps its per-peer bookkeeping in `collections.Counter`
objects (integer keys, integer values, missing keys read as 0).  We embed a
Counter as an association list `List (Int × Int)` together with a
read-with-default-0 accessor `cget` and an update `cset`.  The Python
`keys()` view is `ckeys` (the explicitly stored keys, which may include
zero-valued entries, exactly as the WARNING comment in `__init__` of
`DistributedLock` describes).

States of the lock (module constants `NO_TOKEN = 0`, `TOKEN_PRESENT = 1`,
`TOKEN_HELD = 2`) are embedded as the enumeration `LState`.
-/

/-- Association-list embedding of a Python `collections.Counter` with
integer keys and integer values. -/
abbrev Counter := List (Int × Int)

/-- Counter read: `c[k]` returns the stored value, defaulting to 0 for a
missing key. -/
def cget : Counter → Int → Int
  | [], _ => 0
  | kv :: c, k => if kv.1 = k then kv.2 else cget c k

/-- Counter write: `c[k] = v` overwrites an existing entry in place or
appends a new one (Python dicts keep insertion order). -/
def cset (c : Counter) (k : Int) (v : Int) : Counter :=
  if c.any (fun kv => kv.1 == k) then
    c.map (fun kv => if kv.1 == k then (k, v) else kv)
  else
    c ++ [(k, v)]

/-- The explicitly stored keys of a Counter, i.e. Python `c.keys()`. -/
def ckeys (c : Counter) : List Int := c.map Prod.fst

/-!
Embedding of Python values as far as `_prepare` / `_unprepare` need them:
a Counter key produced by those two functions is either an integer peer id
or a tuple.  `Counter(iterable)` in Python counts the elements of a
non-mapping iterable, so decoding a pair list turns each (id, timestamp)
tuple into a key with multiplicity 1; `PyVal` lets the embedding express
both key shapes.
-/

/-- A Python value as used for Counter keys in the token wire format:
an integer, or a tuple of two values. -/
inductive PyVal where
  | int : Int → PyVal
  | pair : PyVal → PyVal → PyVal
deriving DecidableEq

/-- A Python Counter whose keys are arbitrary hashable values. -/
abbrev PyCounter := List (PyVal × Int)

/-- Read from a `PyCounter` with the Counter default of 0. -/
def pget : PyCounter → PyVal → Int
  | [], _ => 0
  | kv :: c, k => if kv.1 = k then kv.2 else pget c k

/-- Add `n` to the count stored for key `k` (the behaviour of
`Counter.update` on each element of an iterable). -/
def pincr (c : PyCounter) (k : PyVal) (n : Int) : PyCounter :=
  if c.any (fun kv => kv.1 == k) then
    c.map (fun kv => if kv.1 == k then (kv.1, kv.2 + n) else kv)
  else
    c ++ [(k, n)]

namespace DistributedLock

/-- Source `DistributedLock._prepare`: `list(token.items())` — the token
Counter flattened to an ordered list of (key, value) pairs. -/
def prepare (token : PyCounter) : List (PyVal × Int) := token

/-- Source `DistributedLock._unprepare`: `Counter(token)` applied to the
pair list.  Python `Counter(iterable)` with a non-mapping iterable counts
the elements: each (key, value) tuple of the list becomes a Counter KEY
(embedded as `PyVal.pair`) with count incremented by 1. -/
def unprepare (token : List (PyVal × Int)) : PyCounter :=
  token.foldl (fun c kv => pincr c (PyVal.pair kv.1 (PyVal.int kv.2)) 1) []

end DistributedLock

namespace PeerList

/-- Source `PeerList.initialize` registration loop: given this node id and
the directory answer `peer_set` (a list of (id, address) pairs, addresses
abstracted to integers), the ids registered locally are exactly those with
`peer_id != self.owner.id` — the code filters on inequality, not on
`peer_id < self.owner.id`. -/
def registeredIds (selfId : Int) (peerSet : List (Int × Int)) : List Int :=
  (peerSet.filter (fun q => q.1 != selfId)).map Prod.fst

end PeerList

/-- The three lock states: `NO_TOKEN = 0`, `TOKEN_PRESENT = 1`,
`TOKEN_HELD = 2` in the source. -/
inductive LState where
  | noToken
  | tokenPresent
  | tokenHeld
deriving DecidableEq

/-- The mutable fields of a `DistributedLock` instance: `self.owner.id`,
`self.time`, `self.state`, `self.token`, `self.request`.  The peer list
is a separate object and is passed to the operations as the list of ids
it currently stores (remote handles are abstracted away). -/
structure LockState where
  ownerId : Int
  time : Int
  st : LState
  token : Counter
  request : Counter
deriving DecidableEq

/-- State installed by `DistributedLock.__init__`: logical clock 0, state
`NO_TOKEN`, empty `token` and `request` counters. -/
def initState (ownerId : Int) : LockState :=
  { ownerId := ownerId, time := 0, st := LState.noToken, token := [], request := [] }

/-- Source `DistributedLock.initialize`: if `peer_list.get_peers()` is
empty the peer spawns with the token (`state = TOKEN_PRESENT`); otherwise
nothing changes. -/
def initLock (peers : List Int) (s : LockState) : LockState :=
  if peers.length = 0 then { s with st := LState.tokenPresent } else s

/-- Clockwise ring scan order used by `_check_token`: the requester ids
greater than self sorted ascending (`gt`), then those less than self
sorted ascending (`lt`). -/
def insertSorted (x : Int) : List Int → List Int
  | [] => [x]
  | y :: ys => if x ≤ y then x :: y :: ys else y :: insertSorted x ys

/-- Ascending sort (Python `sorted`) on integer lists. -/
def sortAsc (l : List Int) : List Int := l.foldr insertSorted []

/-- The list `gt + lt` of `_check_token`, built from a list of requester
ids. -/
def scan_order (ownerId : Int) (ids : List Int) : List Int :=
  sortAsc (ids.filter (fun pid => ownerId < pid)) ++
    sortAsc (ids.filter (fun pid => pid < ownerId))

/-- The target-selection loop of `_check_token`: the first pid in the
clockwise scan order of `self.request.keys()` with
`self.request[pid] > self.token[pid]`, if any. -/
def find_target (s : LockState) : Option Int :=
  (scan_order s.ownerId (ckeys s.request)).find?
    (fun pid => decide (cget s.token pid < cget s.request pid))

/-- Source `DistributedLock._clean_token`: keep only the token entries
whose key is this node or is currently in the peer list. -/
def clean_token (peers : List Int) (s : LockState) : LockState :=
  { s with token := s.token.filter (fun kv => kv.1 == s.ownerId || peers.contains kv.1) }

/-- Instrumentation of the one remote `obtain_token` call a forwarding
attempt makes: the target id and the payload passed to it, or `none` when
no call was attempted. -/
abbrev Attempt := Option (Int × Counter)

/-- Source `DistributedLock._check_token`.  `ok pid payload` tells whether
the remote `obtain_token(payload)` call to `pid` succeeds (an exception from
a dead peer makes it `false`).  Returns the updated lock state, the
`wasSent` flag, and the attempted remote call.  Faithful details: the
early return fires only for `NO_TOKEN` (a call in `TOKEN_HELD` warns but
falls through); the state is set to `NO_TOKEN` and the token cleaned
before the send, and the except-branch only logs, so a failed send leaves
the state at `NO_TOKEN`. -/
def check_token (peers : List Int) (ok : Int → Counter → Bool) (s : LockState) :
    LockState × Bool × Attempt :=
  if s.st = LState.noToken then (s, false, none)
  else
    match find_target s with
    | none => (s, false, none)
    | some pid =>
        let s1 := clean_token peers s
        let s2 := { s1 with st := LState.noToken }
        (s2, ok pid s2.token, some (pid, s2.token))

/-- Source `DistributedLock.release`: from `TOKEN_HELD` move to
`TOKEN_PRESENT` and run `_check_token`; otherwise warn and change
nothing. -/
def release (peers : List Int) (ok : Int → Counter → Bool) (s : LockState) :
    LockState × Bool × Attempt :=
  if s.st = LState.tokenHeld then
    check_token peers ok { s with st := LState.tokenPresent }
  else (s, false, none)

/-- Source `DistributedLock.request_token`: merge
`request[pid] = max(request[pid], time)`, then, if `TOKEN_PRESENT` and the
merged request timestamp beats the token record for `pid`, run
`_check_token`.  The acknowledgement string it returns carries no state
and is omitted. -/
def request_token (peers : List Int) (ok : Int → Counter → Bool)
    (t pid : Int) (s : LockState) : LockState × Bool × Attempt :=
  let s1 := { s with request := cset s.request pid (max (cget s.request pid) t) }
  if s1.st = LState.tokenPresent ∧ cget s1.token pid < cget s1.request pid then
    check_token peers ok s1
  else (s1, false, none)

/-- Source `DistributedLock.obtain_token`: adopt the incoming payload as
`self.token`, compute `tokenWasWanted = request[self] > token[self]`
against the incoming record, overwrite `token[self] = self.time`, set
`TOKEN_HELD`, and call `release()` when the token was not wanted.  (The
string-to-int key conversion of the wire format is the identity here
because payload keys are already integers in the embedding.) -/
def obtain_token (peers : List Int) (ok : Int → Counter → Bool)
    (incoming : Counter) (s : LockState) : LockState × Bool × Attempt :=
  let tokenWasWanted := cget incoming s.ownerId < cget s.request s.ownerId
  let s1 := { s with token := cset incoming s.ownerId s.time, st := LState.tokenHeld }
  if tokenWasWanted then (s1, false, none) else release peers ok s1

/-- Source `DistributedLock.acquire`, `NO_TOKEN` branch up to the blocking
wait: increment the clock, record the own request, then broadcast
`request_token` to every peer; the loop has no try/except, so the first
failing remote call raises out of `acquire` (modelled as `Except.error`
carrying the local state at the moment the exception escapes — remote
calls do not mutate local state, so that state does not depend on which
peer failed).  The `TOKEN_PRESENT` branch silently moves to `TOKEN_HELD`;
the `TOKEN_HELD` branch only prints.  The blocking
`while state == NO_TOKEN: sleep` wait after a successful broadcast is a
concurrency feature outside this sequential function. -/
def acquire (peers : List Int) (callOk : Int → Bool) (s : LockState) :
    Except LockState LockState :=
  match s.st with
  | LState.noToken =>
      let s1 := { s with time := s.time + 1,
                         request := cset s.request s.ownerId (s.time + 1) }
      if peers.all callOk then Except.ok s1 else Except.error s1
  | LState.tokenPresent => Except.ok { s with st := LState.tokenHeld }
  | LState.tokenHeld => Except.ok s

/-!
Global system model for the mutual-exclusion claim.  A running peer is its
membership view (the ids in its `PeerList`) together with its lock state;
the system is the list of running peers plus the `obtain_token` messages
currently in flight (target id, payload).  Each transition executes one
handler of the source atomically and over-approximates scheduling:
`request_token` may arrive at any peer with any timestamp and sender id,
`_check_token` may be scheduled spontaneously at a token holder, a send
may succeed or fail arbitrarily (subject only to a successful send
targeting a running peer — remote calls to dead processes raise, which is
a failed send), and a departing peer (`destroy` / `_offload_token`) may
emit at most one handoff message and only if it possessed the token, while
messages still in flight towards it are lost.  A join runs the
`PeerList.initialize` / `DistributedLock.initialize` sequence of
`Client.__init__` against a directory snapshot listing the currently
running peers.
-/

/-- One running peer: its membership view and its lock state. -/
structure Proc where
  view : List Int
  lock : LockState
deriving DecidableEq

/-- The whole system: running peers and in-flight `obtain_token`
messages. -/
structure Sys where
  procs : List Proc
  msgs : List (Int × Counter)
deriving DecidableEq

/-- Token weight of a lock state: 1 when the peer possesses the token
(`TOKEN_PRESENT` or `TOKEN_HELD`), 0 otherwise. -/
def wt (s : LockState) : Nat := if s.st = LState.noToken then 0 else 1

/-- Total token weight of a list of peers. -/
def wsum (l : List Proc) : Nat := (l.map (fun p => wt p.lock)).sum

/-- The ids of the running peers. -/
def ids (l : List Proc) : List Int := l.map (fun p => p.lock.ownerId)

/-- The messages a handler run actually put on the wire: the attempted
remote `obtain_token` call when it succeeded, nothing otherwise. -/
def emitted (r : LockState × Bool × Attempt) : List (Int × Counter) :=
  match r with
  | (_, true, some m) => [m]
  | _ => []

/-- Effect of an inbound `register_peer` on an existing peer when a new
peer joins: the new id is added to the membership view. -/
def add_view (newId : Int) (p : Proc) : Proc := { p with view := p.view ++ [newId] }

/-- Local state update of the `NO_TOKEN` branch of `acquire` before the
broadcast: clock increment and own-request record. -/
def acq_start (s : LockState) : LockState :=
  { s with time := s.time + 1, request := cset s.request s.ownerId (s.time + 1) }

/-- One atomic handler execution of the system. -/
inductive Step : Sys → Sys → Prop where
  | join (sys : Sys) (newId : Int) (hfresh : newId ∉ ids sys.procs) :
      Step sys
        ⟨sys.procs.map (add_view newId) ++
           [⟨ids sys.procs, initLock (ids sys.procs) (initState newId)⟩],
         sys.msgs⟩
  | acquireStart (L R : List Proc) (p : Proc) (msgs : List (Int × Counter))
      (h : p.lock.st = LState.noToken) :
      Step ⟨L ++ p :: R, msgs⟩ ⟨L ++ ⟨p.view, acq_start p.lock⟩ :: R, msgs⟩
  | acquireHold (L R : List Proc) (p : Proc) (msgs : List (Int × Counter))
      (h : p.lock.st = LState.tokenPresent) :
      Step ⟨L ++ p :: R, msgs⟩
        ⟨L ++ ⟨p.view, { p.lock with st := LState.tokenHeld }⟩ :: R, msgs⟩
  | releaseStep (L R : List Proc) (p : Proc) (msgs : List (Int × Counter))
      (ok : Int → Counter → Bool)
      (htgt : ∀ m ∈ emitted (release p.view ok p.lock), m.1 ∈ ids (L ++ p :: R)) :
      Step ⟨L ++ p :: R, msgs⟩
        ⟨L ++ ⟨p.view, (release p.view ok p.lock).1⟩ :: R,
         msgs ++ emitted (release p.view ok p.lock)⟩
  | requestStep (L R : List Proc) (p : Proc) (msgs : List (Int × Counter))
      (t pid : Int) (ok : Int → Counter → Bool)
      (htgt : ∀ m ∈ emitted (request_token p.view ok t pid p.lock),
          m.1 ∈ ids (L ++ p :: R)) :
      Step ⟨L ++ p :: R, msgs⟩
        ⟨L ++ ⟨p.view, (request_token p.view ok t pid p.lock).1⟩ :: R,
         msgs ++ emitted (request_token p.view ok t pid p.lock)⟩
  | checkStep (L R : List Proc) (p : Proc) (msgs : List (Int × Counter))
      (ok : Int → Counter → Bool)
      (htgt : ∀ m ∈ emitted (check_token p.view ok p.lock), m.1 ∈ ids (L ++ p :: R)) :
      Step ⟨L ++ p :: R, msgs⟩
        ⟨L ++ ⟨p.view, (check_token p.view ok p.lock).1⟩ :: R,
         msgs ++ emitted (check_token p.view ok p.lock)⟩
  | deliverStep (L R : List Proc) (p : Proc) (M1 M2 : List (Int × Counter))
      (pay : Counter) (ok : Int → Counter → Bool)
      (htgt : ∀ m ∈ emitted (obtain_token p.view ok pay p.lock),
          m.1 ∈ ids (L ++ p :: R)) :
      Step ⟨L ++ p :: R, M1 ++ (p.lock.ownerId, pay) :: M2⟩
        ⟨L ++ ⟨p.view, (obtain_token p.view ok pay p.lock).1⟩ :: R,
         (M1 ++ M2) ++ emitted (obtain_token p.view ok pay p.lock)⟩
  | depart (L R : List Proc) (p : Proc) (msgs em : List (Int × Counter))
      (hem : em.length ≤ wt p.lock)
      (htgt : ∀ m ∈ em, m.1 ∈ ids (L ++ R)) :
      Step ⟨L ++ p :: R, msgs⟩
        ⟨L ++ R, msgs.filter (fun m => m.1 != p.lock.ownerId) ++ em⟩

/-- The reachable system states: the empty system closed under `Step`. -/
inductive Reachable : Sys → Prop where
  | start : Reachable ⟨[], []⟩
  | step (a b : Sys) : Reachable a → Step a b → Reachable b

/-- The singleton-token invariant: total token weight plus in-flight
messages is at most one, and every in-flight message targets a running
peer. -/
def SysInv (sys : Sys) : Prop :=
  wsum sys.procs + sys.msgs.length ≤ 1 ∧ ∀ m ∈ sys.msgs, m.1 ∈ ids sys.procs

/-- The intermediate state in the middle of `obtain_token`, after the
payload adoption, the `token[self] = time` overwrite and the transition
to `TOKEN_HELD`, right before the conditional `release()` call. -/
def adopt_state (pay : Counter) (s : LockState) : LockState :=
  { s with token := cset pay s.ownerId s.time, st := LState.tokenHeld }

/-!
Fine-grained system model.  The `Step` relation above runs each handler
atomically, but the source does not justify that granularity everywhere:
`self.localLock` is taken only by `_check_token`, `_offload_token` and
`display_status`, while the `TOKEN_PRESENT` branch of `acquire` reads
`self.state` and then writes `TOKEN_HELD` with no lock at all.  Under the
scheduling the code runs with (inbound remote calls dispatched on their
own threads, interleaving arbitrarily with the local control thread),
that read and that write can be separated by a complete `_check_token`
run triggered by an inbound `request_token`.  The relation `FStep`
refines `Step` in exactly this one place: the atomic
`TOKEN_PRESENT → TOKEN_HELD` acquire step is replaced by an observe step
(the `elif self.state == TOKEN_PRESENT` test evaluating true, recorded in
the flag `acqObserved`) and a later write step (the unconditional
`self.state = TOKEN_HELD` assignment).  Every other handler keeps the
atomic granularity, and the local-thread steps (`acquireStart`, observe,
`releaseStep`) require the flag to be clear, since the one local thread
cannot be elsewhere while suspended between the test and the write. -/

/-- One running peer of the fine-grained model: membership view, lock
state, and whether the local acquire thread has observed
`TOKEN_PRESENT` and is about to write `TOKEN_HELD`. -/
structure FProc where
  view : List Int
  lock : LockState
  acqObserved : Bool
deriving DecidableEq

/-- The fine-grained system: running peers and in-flight `obtain_token`
messages. -/
structure FSys where
  procs : List FProc
  msgs : List (Int × Counter)
deriving DecidableEq

/-- The ids of the running peers of the fine-grained model. -/
def fids (l : List FProc) : List Int := l.map (fun p => p.lock.ownerId)

/-- Effect of an inbound `register_peer` on an existing fine-grained peer
when a new peer joins. -/
def add_fview (newId : Int) (p : FProc) : FProc := { p with view := p.view ++ [newId] }

/-- One step of the fine-grained system: the handlers of `Step`, with the
`TOKEN_PRESENT` branch of `acquire` split into its unlocked state read
(`acquireObserve`, source line `elif self.state == TOKEN_PRESENT`) and
its unlocked state write (`acquireWrite`, source line
`self.state = TOKEN_HELD`). -/
inductive FStep : FSys → FSys → Prop where
  | join (sys : FSys) (newId : Int) (hfresh : newId ∉ fids sys.procs) :
      FStep sys
        ⟨sys.procs.map (add_fview newId) ++
           [⟨fids sys.procs, initLock (fids sys.procs) (initState newId), false⟩],
         sys.msgs⟩
  | acquireStart (L R : List FProc) (p : FProc) (msgs : List (Int × Counter))
      (h : p.lock.st = LState.noToken) (hf : p.acqObserved = false) :
      FStep ⟨L ++ p :: R, msgs⟩ ⟨L ++ { p with lock := acq_start p.lock } :: R, msgs⟩
  | acquireObserve (L R : List FProc) (p : FProc) (msgs : List (Int × Counter))
      (h : p.lock.st = LState.tokenPresent) (hf : p.acqObserved = false) :
      FStep ⟨L ++ p :: R, msgs⟩ ⟨L ++ { p with acqObserved := true } :: R, msgs⟩
  | acquireWrite (L R : List FProc) (p : FProc) (msgs : List (Int × Counter))
      (hf : p.acqObserved = true) :
      FStep ⟨L ++ p :: R, msgs⟩
        ⟨L ++ { p with lock := { p.lock with st := LState.tokenHeld },
                       acqObserved := false } :: R, msgs⟩
  | releaseStep (L R : List FProc) (p : FProc) (msgs : List (Int × Counter))
      (ok : Int → Counter → Bool) (hf : p.acqObserved = false)
      (htgt : ∀ m ∈ emitted (release p.view ok p.lock), m.1 ∈ fids (L ++ p :: R)) :
      FStep ⟨L ++ p :: R, msgs⟩
        ⟨L ++ { p with lock := (release p.view ok p.lock).1 } :: R,
         msgs ++ emitted (release p.view ok p.lock)⟩
  | requestStep (L R : List FProc) (p : FProc) (msgs : List (Int × Counter))
      (t pid : Int) (ok : Int → Counter → Bool)
      (htgt : ∀ m ∈ emitted (request_token p.view ok t pid p.lock),
          m.1 ∈ fids (L ++ p :: R)) :
      FStep ⟨L ++ p :: R, msgs⟩
        ⟨L ++ { p with lock := (request_token p.view ok t pid p.lock).1 } :: R,
         msgs ++ emitted (request_token p.view ok t pid p.lock)⟩
  | checkStep (L R : List FProc) (p : FProc) (msgs : List (Int × Counter))
      (ok : Int → Counter → Bool)
      (htgt : ∀ m ∈ emitted (check_token p.view ok p.lock), m.1 ∈ fids (L ++ p :: R)) :
      FStep ⟨L ++ p :: R, msgs⟩
        ⟨L ++ { p with lock := (check_token p.view ok p.lock).1 } :: R,
         msgs ++ emitted (check_token p.view ok p.lock)⟩
  | deliverStep (L R : List FProc) (p : FProc) (M1 M2 : List (Int × Counter))
      (pay : Counter) (ok : Int → Counter → Bool)
      (htgt : ∀ m ∈ emitted (obtain_token p.view ok pay p.lock),
          m.1 ∈ fids (L ++ p :: R)) :
      FStep ⟨L ++ p :: R, M1 ++ (p.lock.ownerId, pay) :: M2⟩
        ⟨L ++ { p with lock := (obtain_token p.view ok pay p.lock).1 } :: R,
         (M1 ++ M2) ++ emitted (obtain_token p.view ok pay p.lock)⟩
  | depart (L R : List FProc) (p : FProc) (msgs em : List (Int × Counter))
      (hem : em.length ≤ wt p.lock)
      (htgt : ∀ m ∈ em, m.1 ∈ fids (L ++ R)) :
      FStep ⟨L ++ p :: R, msgs⟩
        ⟨L ++ R, msgs.filter (fun m => m.1 != p.lock.ownerId) ++ em⟩

/-- The reachable fine-grained system states. -/
inductive FReachable : FSys → Prop where
  | start : FReachable ⟨[], []⟩
  | step (a b : FSys) : FReachable a → FStep a b → FReachable b

/-!
Concrete inputs used to evaluate the claims.
-/

/-- A remote-call oracle on which every `obtain_token` call raises. -/
def okNever : Int → Counter → Bool := fun _ _ => false

/-- A holder (id 1) in `TOKEN_PRESENT` with a pending request from peer 2
and an empty token payload. -/
def stC2 : LockState :=
  { ownerId := 1, time := 0, st := LState.tokenPresent, token := [], request := [(2, 1)] }

/-- The token payload mapping peer 1 to timestamp 5. -/
def tokC4 : PyCounter := [(PyVal.int 1, 5)]

/-- A holder (id 3) in `TOKEN_PRESENT` with no recorded requests. -/
def stC6 : LockState :=
  { ownerId := 3, time := 0, st := LState.tokenPresent, token := [], request := [] }

/-- A holder (id 1) in `TOKEN_PRESENT` whose token payload still records the
departed peer 3, with a pending request from the live peer 2. -/
def stC10 : LockState :=
  { ownerId := 1, time := 0, st := LState.tokenPresent,
    token := [(3, 7), (1, 2)], request := [(2, 1)] }

/-- The system right after the first peer (id 1) joined an empty system. -/
def sysA : Sys :=
  { procs := [{ view := [], lock := initLock [] (initState 1) }], msgs := [] }

/-- Peer 1 as the bootstrap holder: `TOKEN_PRESENT`, fresh counters. -/
def lockA : LockState :=
  { ownerId := 1, time := 0, st := LState.tokenPresent, token := [], request := [] }

/-- Peer 1 after the inbound `request_token(1, 2)` forwarded the token:
`NO_TOKEN`, request record for peer 2 merged. -/
def lockA2 : LockState :=
  { ownerId := 1, time := 0, st := LState.noToken, token := [], request := [(2, 1)] }

/-- Peer 1 after its suspended acquire thread resumes and writes
`TOKEN_HELD` over the `NO_TOKEN` left by the forwarding. -/
def lockA3 : LockState :=
  { ownerId := 1, time := 0, st := LState.tokenHeld, token := [], request := [(2, 1)] }

/-- Peer 2 after its `acquire` broadcast: clock 1, own request recorded. -/
def lockB1 : LockState :=
  { ownerId := 2, time := 1, st := LState.noToken, token := [], request := [(2, 1)] }

/-- Peer 2 after `obtain_token` delivered the token it wanted:
`TOKEN_HELD`, payload entry for itself set to its clock. -/
def lockB2 : LockState :=
  { ownerId := 2, time := 1, st := LState.tokenHeld, token := [(2, 1)], request := [(2, 1)] }

/-- Fine-grained trace, step 0: the empty system. -/
def fsys0 : FSys := ⟨[], []⟩

/-- Step 1: peer 1 joined alone and spawned with the token. -/
def fsys1 : FSys := ⟨[⟨[], lockA, false⟩], []⟩

/-- Step 2: peer 2 joined; both peers know each other. -/
def fsys2 : FSys := ⟨[⟨[2], lockA, false⟩, ⟨[1], initState 2, false⟩], []⟩

/-- Step 3: peer 2 started `acquire` (clock tick, own request). -/
def fsys3 : FSys := ⟨[⟨[2], lockA, false⟩, ⟨[1], lockB1, false⟩], []⟩

/-- Step 4: peer 1's local acquire thread evaluated
`elif self.state == TOKEN_PRESENT` true and was preempted. -/
def fsys4 : FSys := ⟨[⟨[2], lockA, true⟩, ⟨[1], lockB1, false⟩], []⟩

/-- Step 5: peer 2's `request_token(1, 2)` reached peer 1, whose
`_check_token` forwarded the token to peer 2 and set `NO_TOKEN`. -/
def fsys5 : FSys := ⟨[⟨[2], lockA2, true⟩, ⟨[1], lockB1, false⟩], [(2, [])]⟩

/-- Step 6: peer 2's `obtain_token` ran: it wanted the token, so it is
now `TOKEN_HELD`. -/
def fsys6 : FSys := ⟨[⟨[2], lockA2, true⟩, ⟨[1], lockB2, false⟩], []⟩

/-- Step 7: peer 1's suspended acquire thread resumed and executed
`self.state = TOKEN_HELD` — both peers are now in `TOKEN_HELD`. -/
def fsysBad : FSys := ⟨[⟨[2], lockA3, false⟩, ⟨[1], lockB2, false⟩], []⟩

/-- A remote-call oracle on which every call succeeds. -/
def okAlways : Int → Counter → Bool := fun _ _ => true

/-!
Helper lemmas about the sequential operations.
-/

theorem cget_map_overwrite (t : Counter) (k v q : Int) (hq : q ≠ k) :
    cget (t.map (fun kv => if (kv.1 == k) = true then (k, v) else kv)) q = cget t q := by
  induction t with
  | nil => rfl
  | cons kv t ih =>
      by_cases hk : kv.1 = k
      · simp only [List.map_cons, cget, hk, beq_self_eq_true, if_pos,
          Ne.symm hq, if_neg, not_false_eq_true]
        exact ih
      · by_cases hq1 : kv.1 = q
        · simp [cget, hq, hq1]
        · simp only [List.map_cons, show (kv.1 == k) = false by simpa using hk,
            Bool.false_eq_true, not_false_eq_true, if_neg, cget, hq1]
          exact ih

theorem cget_map_overwrite_self (t : Counter) (k v : Int)
    (hany : (t.any fun kv => kv.1 == k) = true) :
    cget (t.map (fun kv => if (kv.1 == k) = true then (k, v) else kv)) k = v := by
  induction t with
  | nil => simp at hany
  | cons kv t ih =>
      by_cases hk : kv.1 = k
      · simp [cget, hk]
      · have hkb : (kv.1 == k) = false := by simpa using hk
        simp only [List.any_cons, hkb, Bool.false_or] at hany
        simp only [List.map_cons, hkb, Bool.false_eq_true, not_false_eq_true,
          if_neg, cget, hk]
        exact ih hany

theorem cget_append_single_self (t : Counter) (k v : Int)
    (hany : (t.any fun kv => kv.1 == k) = false) :
    cget (t ++ [(k, v)]) k = v := by
  induction t with
  | nil => simp [cget]
  | cons kv t ih =>
      rw [List.any_cons] at hany
      have h2 := Bool.or_eq_false_iff.mp hany
      have hk : ¬ kv.1 = k := by simpa using h2.1
      simp only [List.cons_append, cget, hk, if_neg, not_false_eq_true]
      exact ih h2.2

theorem cget_append_single_ne (t : Counter) (k v q : Int) (hq : q ≠ k) :
    cget (t ++ [(k, v)]) q = cget t q := by
  induction t with
  | nil => simp [cget, Ne.symm hq]
  | cons kv t ih =>
      by_cases hq1 : kv.1 = q
      · simp [cget, hq1]
      · simp [cget, hq1, ih]

theorem cget_cset_self (c : Counter) (k v : Int) : cget (cset c k v) k = v := by
  unfold cset
  by_cases hany : (c.any fun kv => kv.1 == k) = true
  · rw [if_pos hany]
    exact cget_map_overwrite_self c k v hany
  · rw [if_neg hany]
    refine cget_append_single_self c k v ?hf
    cases h : (c.any fun kv => kv.1 == k) with
    | true => exact absurd h hany
    | false => rfl

theorem cget_cset_ne (c : Counter) (k v q : Int) (hq : q ≠ k) :
    cget (cset c k v) q = cget c q := by
  unfold cset
  by_cases hany : (c.any fun kv => kv.1 == k) = true
  · rw [if_pos hany]
    exact cget_map_overwrite c k v q hq
  · rw [if_neg hany]
    exact cget_append_single_ne c k v q hq

theorem st_clean_token (peers : List Int) (s : LockState) :
    (clean_token peers s).st = s.st := rfl

theorem owner_clean_token (peers : List Int) (s : LockState) :
    (clean_token peers s).ownerId = s.ownerId := rfl

theorem request_clean_token (peers : List Int) (s : LockState) :
    (clean_token peers s).request = s.request := rfl

theorem owner_check_token (v : List Int) (ok : Int → Counter → Bool) (s : LockState) :
    (check_token v ok s).1.ownerId = s.ownerId := by
  unfold check_token
  split
  · rfl
  · cases h : find_target s <;> simp [clean_token]

theorem request_check_token (v : List Int) (ok : Int → Counter → Bool) (s : LockState) :
    (check_token v ok s).1.request = s.request := by
  unfold check_token
  split
  · rfl
  · cases h : find_target s <;> simp [clean_token]

theorem owner_release (v : List Int) (ok : Int → Counter → Bool) (s : LockState) :
    (release v ok s).1.ownerId = s.ownerId := by
  unfold release
  split
  · exact owner_check_token v ok { s with st := LState.tokenPresent }
  · rfl

theorem owner_request_token (v : List Int) (ok : Int → Counter → Bool)
    (t pid : Int) (s : LockState) :
    (request_token v ok t pid s).1.ownerId = s.ownerId := by
  simp only [request_token]
  split
  · exact owner_check_token v ok _
  · rfl

theorem owner_obtain_token (v : List Int) (ok : Int → Counter → Bool)
    (pay : Counter) (s : LockState) :
    (obtain_token v ok pay s).1.ownerId = s.ownerId := by
  simp only [obtain_token]
  split
  · rfl
  · exact owner_release v ok _

theorem wt_check_token (v : List Int) (ok : Int → Counter → Bool) (s : LockState) :
    wt (check_token v ok s).1 + (emitted (check_token v ok s)).length ≤ wt s := by
  simp only [check_token]
  split
  · simp [emitted]
  · rename_i hst
    cases h : find_target s with
    | none => simp [emitted, wt]
    | some pid =>
        cases hb : ok pid (clean_token v s).token with
        | true => simp [emitted, wt, hst, hb]
        | false => simp [emitted, wt, hst, hb]

theorem wt_release (v : List Int) (ok : Int → Counter → Bool) (s : LockState) :
    wt (release v ok s).1 + (emitted (release v ok s)).length ≤ wt s := by
  unfold release
  split
  · rename_i hst
    have h := wt_check_token v ok { s with st := LState.tokenPresent }
    have h1 : wt { s with st := LState.tokenPresent } = 1 := by simp [wt]
    have h2 : wt s = 1 := by simp [wt, hst]
    omega
  · simp [emitted]

theorem wt_request_token (v : List Int) (ok : Int → Counter → Bool)
    (t pid : Int) (s : LockState) :
    wt (request_token v ok t pid s).1 + (emitted (request_token v ok t pid s)).length
      ≤ wt s := by
  simp only [request_token]
  split
  · have h := wt_check_token v ok
      { s with request := cset s.request pid (max (cget s.request pid) t) }
    have h1 : wt { s with request := cset s.request pid (max (cget s.request pid) t) }
        = wt s := by simp [wt]
    omega
  · simp [emitted, wt]

theorem wt_obtain_token (v : List Int) (ok : Int → Counter → Bool)
    (pay : Counter) (s : LockState) :
    wt (obtain_token v ok pay s).1 + (emitted (obtain_token v ok pay s)).length ≤ 1 := by
  simp only [obtain_token]
  split
  · simp [emitted, wt]
  · have h := wt_release v ok
      { s with token := cset pay s.ownerId s.time, st := LState.tokenHeld }
    have h1 : wt { s with token := cset pay s.ownerId s.time, st := LState.tokenHeld }
        = 1 := by simp [wt]
    omega

theorem wsum_append (l1 l2 : List Proc) : wsum (l1 ++ l2) = wsum l1 + wsum l2 := by
  simp [wsum]

theorem wsum_cons (p : Proc) (l : List Proc) : wsum (p :: l) = wt p.lock + wsum l := by
  simp [wsum]

theorem ids_append (l1 l2 : List Proc) : ids (l1 ++ l2) = ids l1 ++ ids l2 := by
  simp [ids]

theorem ids_cons (p : Proc) (l : List Proc) :
    ids (p :: l) = p.lock.ownerId :: ids l := by
  simp [ids]

theorem wsum_map_add_view (n : Int) (l : List Proc) :
    wsum (l.map (add_view n)) = wsum l := by
  induction l with
  | nil => rfl
  | cons p t ih => simp [wsum_cons, add_view, ih]

theorem ids_map_add_view (n : Int) (l : List Proc) :
    ids (l.map (add_view n)) = ids l := by
  induction l with
  | nil => rfl
  | cons p t ih => simp [ids_cons, add_view, ih]

theorem inv_step (a b : Sys) (ha : SysInv a) (hs : Step a b) : SysInv b := by
  obtain ⟨hw, hm⟩ := ha
  cases hs with
  | join sys newId hfresh =>
      constructor
      · have h3 : wsum (a.procs.map (add_view newId)) = wsum a.procs :=
          wsum_map_add_view newId a.procs
        simp only [wsum_append, h3, wsum_cons]
        by_cases hp : a.procs = []
        · have hmsgs : a.msgs = [] := by
            cases hq : a.msgs with
            | nil => rfl
            | cons m t =>
                have := hm m (by simp [hq])
                simp [hp, ids] at this
          simp [hp, hmsgs, wsum, ids, initLock, wt, initState]
        · have hlen : (ids a.procs).length ≠ 0 := by
            simp only [ids, List.length_map]
            intro h0
            exact hp (List.length_eq_zero.mp h0)
          have h2 : wt (initLock (ids a.procs) (initState newId)) = 0 := by
            simp [initLock, hlen, wt, initState]
          have hz : wsum ([] : List Proc) = 0 := rfl
          rw [h2, hz]
          omega
      · intro m hmem
        have := hm m hmem
        simp only [ids_append, ids_map_add_view]
        simp [ids] at this ⊢
        rcases this with ⟨p, hp, he⟩
        exact Or.inl ⟨p, hp, he⟩
  | acquireStart L R p msgs h =>
      constructor
      · simp only [wsum_append, wsum_cons] at hw ⊢
        have : wt (acq_start p.lock) = wt p.lock := by simp [acq_start, wt]
        simp only [this]
        exact hw
      · intro m hmem
        have := hm m hmem
        simp only [ids_append, ids_cons] at this ⊢
        simpa [acq_start] using this
  | acquireHold L R p msgs h =>
      constructor
      · simp only [wsum_append, wsum_cons] at hw ⊢
        simp only [wt, h] at hw ⊢
        simp at hw ⊢
        omega
      · intro m hmem
        have := hm m hmem
        simp only [ids_append, ids_cons] at this ⊢
        simpa using this
  | releaseStep L R p msgs ok htgt =>
      have hwt := wt_release p.view ok p.lock
      have how := owner_release p.view ok p.lock
      constructor
      · simp only [wsum_append, wsum_cons, List.length_append] at hw ⊢
        omega
      · intro m hmem
        simp only [List.mem_append] at hmem
        rcases hmem with hold | hnew
        · have := hm m hold
          simp only [ids_append, ids_cons] at this ⊢
          simpa [how] using this
        · have := htgt m hnew
          simp only [ids_append, ids_cons] at this ⊢
          simpa [how] using this
  | requestStep L R p msgs t pid ok htgt =>
      have hwt := wt_request_token p.view ok t pid p.lock
      have how := owner_request_token p.view ok t pid p.lock
      constructor
      · simp only [wsum_append, wsum_cons, List.length_append] at hw ⊢
        omega
      · intro m hmem
        simp only [List.mem_append] at hmem
        rcases hmem with hold | hnew
        · have := hm m hold
          simp only [ids_append, ids_cons] at this ⊢
          simpa [how] using this
        · have := htgt m hnew
          simp only [ids_append, ids_cons] at this ⊢
          simpa [how] using this
  | checkStep L R p msgs ok htgt =>
      have hwt := wt_check_token p.view ok p.lock
      have how := owner_check_token p.view ok p.lock
      constructor
      · simp only [wsum_append, wsum_cons, List.length_append] at hw ⊢
        omega
      · intro m hmem
        simp only [List.mem_append] at hmem
        rcases hmem with hold | hnew
        · have := hm m hold
          simp only [ids_append, ids_cons] at this ⊢
          simpa [how] using this
        · have := htgt m hnew
          simp only [ids_append, ids_cons] at this ⊢
          simpa [how] using this
  | deliverStep L R p M1 M2 pay ok htgt =>
      have hwt := wt_obtain_token p.view ok pay p.lock
      have how := owner_obtain_token p.view ok pay p.lock
      constructor
      · simp only [wsum_append, wsum_cons, List.length_append, List.length_cons]
          at hw ⊢
        omega
      · intro m hmem
        simp only [List.mem_append] at hmem
        rcases hmem with (h1 | h2) | hnew
        · have := hm m (by simp [h1])
          simp only [ids_append, ids_cons] at this ⊢
          simpa [how] using this
        · have := hm m (by simp [h2])
          simp only [ids_append, ids_cons] at this ⊢
          simpa [how] using this
        · have := htgt m hnew
          simp only [ids_append, ids_cons] at this ⊢
          simpa [how] using this
  | depart L R p msgs em hem htgt =>
      constructor
      · have hlen : (msgs.filter (fun m => m.1 != p.lock.ownerId)).length ≤ msgs.length :=
          List.length_filter_le _ _
        simp only [wsum_append, wsum_cons, List.length_append] at hw ⊢
        omega
      · intro m hmem
        simp only [List.mem_append] at hmem
        rcases hmem with hold | hnew
        · have hmf := List.mem_filter.mp hold
          have hin := hm m hmf.1
          have hne : m.1 ≠ p.lock.ownerId := by simpa using hmf.2
          simp only [ids_append, ids_cons] at hin ⊢
          simp only [List.mem_append, List.mem_cons] at hin ⊢
          rcases hin with h1 | h2 | h3
          · exact Or.inl h1
          · exact absurd h2 hne
          · exact Or.inr h3
        · have := htgt m hnew
          simpa using this

theorem inv_reachable (s : Sys) (h : Reachable s) : SysInv s := by
  induction h with
  | start => exact ⟨by simp [wsum], by intro m hm; simp at hm⟩
  | step a b _ hs ih => exact inv_step a b ih hs

theorem request_request_token (v : List Int) (ok : Int → Counter → Bool)
    (t pid : Int) (s : LockState) :
    (request_token v ok t pid s).1.request
      = cset s.request pid (max (cget s.request pid) t) := by
  simp only [request_token]
  split
  · exact request_check_token v ok _
  · rfl

theorem cget_fold_request (v : List Int) (ok : Int → Counter → Bool) (pid : Int) :
    ∀ (ts : List Int) (s : LockState),
      cget ((ts.foldl (fun s t => (request_token v ok t pid s).1) s).request) pid
        = ts.foldl max (cget s.request pid) := by
  intro ts
  induction ts with
  | nil => intro s; rfl
  | cons t ts ih =>
      intro s
      simp only [List.foldl_cons]
      rw [ih]
      congr 1
      rw [request_request_token]
      exact cget_cset_self _ _ _

theorem find?_first {α : Type} (p : α → Bool) :
    ∀ (l : List α) (a : α), l.find? p = some a →
      ∃ l1 l2, l = l1 ++ a :: l2 ∧ (∀ x ∈ l1, p x = false) ∧ p a = true := by
  intro l
  induction l with
  | nil => intro a h; simp [List.find?] at h
  | cons x t ih =>
      intro a h
      cases hp : p x with
      | true =>
          rw [List.find?_cons_of_pos _ hp] at h
          obtain rfl : x = a := by injection h
          exact ⟨[], t, rfl, by simp, hp⟩
      | false =>
          rw [List.find?_cons_of_neg _ (by simp [hp])] at h
          obtain ⟨l1, l2, heq, hall, hpa⟩ := ih a h
          refine ⟨x :: l1, l2, by simp [heq], ?_, hpa⟩
          intro y hy
          rcases List.mem_cons.mp hy with rfl | hy2
          · exact hp
          · exact hall y hy2

/-- Claim C1 as amended: PROVIDED each handler of the source executes
atomically — in particular, provided the unlocked `TOKEN_PRESENT` check
and `TOKEN_HELD` write of `acquire` are not interleaved with a concurrent
`_check_token` — then in every reachable execution no two distinct peers
are simultaneously in state `TOKEN_HELD`, and the total token weight
(peers in `TOKEN_PRESENT` or `TOKEN_HELD`) is at most one.  The claim as
originally stated, over the scheduling the code actually runs with, is
false: see the counterexample below, which splits exactly that unlocked
check-then-write and reaches a state with two peers in `TOKEN_HELD`. -/
theorem claim1_mutual_exclusion (sys : Sys) (h : Reachable sys) :
    (∀ (L M R : List Proc) (p q : Proc), sys.procs = L ++ p :: M ++ q :: R →
       ¬(p.lock.st = LState.tokenHeld ∧ q.lock.st = LState.tokenHeld)) ∧
    wsum sys.procs ≤ 1 := by
  obtain ⟨hw, _⟩ := inv_reachable sys h
  constructor
  · rintro L M R p q heq ⟨hp, hq⟩
    rw [heq] at hw
    simp only [wsum_append, wsum_cons] at hw
    have h1 : wt p.lock = 1 := by simp [wt, hp]
    have h2 : wt q.lock = 1 := by simp [wt, hq]
    omega
  · omega

/-- Witness for C1: the theorem applied to the concrete reachable system
in which peer 1 has joined an empty system and spawned with the token. -/
theorem claim1_mutual_exclusion_witness : wsum sysA.procs ≤ 1 :=
  (claim1_mutual_exclusion sysA
    (Reachable.step ⟨[], []⟩ sysA Reachable.start
      (Step.join ⟨[], []⟩ 1 (by simp [ids])))).2

/-- Counterexample to claim C1 as stated: in the fine-grained model,
which differs from the atomic one only by splitting the unlocked
`TOKEN_PRESENT` check and `TOKEN_HELD` write of `acquire` (source lines
`elif self.state == TOKEN_PRESENT` / `self.state = TOKEN_HELD`, executed
with no lock held), the state `fsysBad` is reachable, its two peers have
the distinct ids 1 and 2, and both are in `TOKEN_HELD` simultaneously.
The trace: peer 1 boots alone with the token; peer 2 joins and calls
`acquire` (broadcasting its request); peer 1's local `acquire` observes
`TOKEN_PRESENT` and is preempted; peer 1's inbound `request_token(1, 2)`
runs `_check_token`, which forwards the token to peer 2 and sets
`NO_TOKEN`; peer 2's `obtain_token` makes it `TOKEN_HELD`; peer 1's
suspended thread then resumes and writes `TOKEN_HELD`. -/
theorem claim1_mutual_exclusion_cex :
    FReachable fsysBad ∧
    fids fsysBad.procs = [1, 2] ∧
    fsysBad.procs.map (fun p => p.lock.st) = [LState.tokenHeld, LState.tokenHeld] := by
  refine ⟨?_, by decide, by decide⟩
  have r1 : FReachable fsys1 :=
    FReachable.step fsys0 fsys1 FReachable.start
      (FStep.join fsys0 1 (by decide))
  have r2 : FReachable fsys2 :=
    FReachable.step fsys1 fsys2 r1
      (FStep.join fsys1 2 (by decide))
  have r3 : FReachable fsys3 :=
    FReachable.step fsys2 fsys3 r2
      (FStep.acquireStart [⟨[2], lockA, false⟩] [] ⟨[1], initState 2, false⟩ []
        (by decide) (by decide))
  have r4 : FReachable fsys4 :=
    FReachable.step fsys3 fsys4 r3
      (FStep.acquireObserve [] [⟨[1], lockB1, false⟩] ⟨[2], lockA, false⟩ []
        (by decide) (by decide))
  have r5 : FReachable fsys5 :=
    FReachable.step fsys4 fsys5 r4
      (FStep.requestStep [] [⟨[1], lockB1, false⟩] ⟨[2], lockA, true⟩ []
        1 2 okAlways (by decide))
  have r6 : FReachable fsys6 :=
    FReachable.step fsys5 fsys6 r5
      (FStep.deliverStep [⟨[2], lockA2, true⟩] [] ⟨[1], lockB1, false⟩ [] []
        [] okAlways (by decide))
  exact FReachable.step fsys6 fsysBad r6
    (FStep.acquireWrite [] [⟨[1], lockB2, false⟩] ⟨[2], lockA2, true⟩ []
      (by decide))

/-- Claim C2, evaluation at the failing input: holder 1 in
`TOKEN_PRESENT` with a pending request from peer 2 runs `_check_token`;
the remote `obtain_token` call to peer 2 raises, yet the local state is
left at `NO_TOKEN` (`wasSent = false`), so no peer holds the token — the
state was cleared before the delivery was confirmed and is not
restored. -/
theorem claim2_token_loss_eval :
    check_token [2] okNever stC2 =
      ({ stC2 with st := LState.noToken }, false, some (2, [])) := by decide

/-- Claim C3, evaluation at the failing input: a node with id 3 whose
directory answer is the single peer (5, addr) registers peer 5 during
`PeerList.initialize`, although 5 is not less than 3 — the code filters
on `peer_id != self.owner.id`, not on `peer_id < self.owner.id`. -/
theorem claim3_registration_eval :
    PeerList.registeredIds 3 [(5, 0)] = [5] ∧ ¬ (5 : Int) < 3 := by decide

/-- Claim C4, evaluation at the failing input: for the non-empty payload
`{1: 5}`, `_unprepare` applied to `_prepare` does not reproduce the
mapping — the decoded Counter reads 0 at key 1 (the original read 5) and
instead stores count 1 under the tuple key (1, 5), because Python
`Counter(list_of_pairs)` counts the pairs as elements. -/
theorem claim4_roundtrip_eval :
    pget (DistributedLock.unprepare (DistributedLock.prepare tokC4)) (PyVal.int 1) = 0 ∧
    pget tokC4 (PyVal.int 1) = 5 ∧
    pget (DistributedLock.unprepare (DistributedLock.prepare tokC4))
      (PyVal.pair (PyVal.int 1) (PyVal.int 5)) = 1 := by decide

/-- Claim C5, evaluation at the failing input: a node with id 1 in
`NO_TOKEN` calls `acquire` with one registered peer (id 2) whose remote
`request_token` raises; `acquire` has no try/except around the broadcast
loop, so the exception propagates out of `acquire` (the `Except.error`
result) instead of being caught and logged at the call site. -/
theorem claim5_acquire_raises_eval :
    acquire [2] (fun _ => false) (initState 1) =
      Except.error { ownerId := 1, time := 1, st := LState.noToken,
                     token := [], request := [(1, 1)] } := by rfl

/-- Claim C6: `_check_token` scans candidates in clockwise ring order —
for requesters {2, 5, 1} and holder 3 the order is [5, 1, 2] — and
selects the first pid in that order with `request[pid] > token[pid]`
(every candidate before the selected one fails the comparison); when no
candidate satisfies the comparison, no send occurs and the holder keeps
the state it was in (`TOKEN_PRESENT`). -/
theorem claim6_forwarding_order :
    scan_order 3 [2, 5, 1] = [5, 1, 2] ∧
    (∀ (v : List Int) (ok : Int → Counter → Bool) (s : LockState),
      s.st = LState.tokenPresent → find_target s = none →
      check_token v ok s = (s, false, none)) ∧
    (∀ (s : LockState) (pid : Int), find_target s = some pid →
      cget s.token pid < cget s.request pid ∧
      ∃ l1 l2, scan_order s.ownerId (ckeys s.request) = l1 ++ pid :: l2 ∧
        ∀ q ∈ l1, ¬ cget s.token q < cget s.request q) := by
  refine ⟨by decide, ?_, ?_⟩
  · intro v ok s hst hnone
    simp [check_token, hst, hnone]
  · intro s pid h
    have hp := List.find?_some h
    obtain ⟨l1, l2, heq, hall, _⟩ := find?_first _ _ _ h
    refine ⟨by simpa using hp, l1, l2, heq, ?_⟩
    intro q hq
    simpa using hall q hq

/-- Witness for C6: the scan-order equation together with the theorem
applied to the concrete holder `stC6` (id 3, `TOKEN_PRESENT`, no
requests), for which no candidate is selected and the state is kept. -/
theorem claim6_forwarding_order_witness :
    scan_order 3 [2, 5, 1] = [5, 1, 2] ∧
    check_token [] okNever stC6 = (stC6, false, none) :=
  ⟨claim6_forwarding_order.1,
   claim6_forwarding_order.2.1 [] okNever stC6 rfl (by decide)⟩

/-- Claim C7: starting from the fresh state (default 0), after any
sequence of `request_token(t, pid)` calls for a fixed `pid` the stored
request timestamp for `pid` equals the maximum timestamp ever received
(folded with max from 0), and a single `request_token` call never
decreases any stored request timestamp. -/
theorem claim7_monotone_merge (v : List Int) (ok : Int → Counter → Bool)
    (o pid : Int) (ts : List Int) :
    cget ((ts.foldl (fun s t => (request_token v ok t pid s).1) (initState o)).request)
        pid = ts.foldl max 0 ∧
    ∀ (s : LockState) (t q : Int),
      cget s.request q ≤ cget ((request_token v ok t pid s).1).request q := by
  constructor
  · have h := cget_fold_request v ok pid ts (initState o)
    simpa [initState, cget] using h
  · intro s t q
    rw [request_request_token]
    by_cases hq : q = pid
    · subst hq
      rw [cget_cset_self]
      exact le_max_left _ _
    · rw [cget_cset_ne _ _ _ _ hq]

/-- Claim C8: on `obtain_token(pay)` in `NO_TOKEN`, the node adopts the
incoming payload, overwrites the entry for its own id with its local
clock, and transitions to `TOKEN_HELD` (the intermediate state spelled
out below); it then immediately calls `release()` exactly when its own
last request timestamp does not exceed the incoming payload's previous
record for its own id, and keeps holding otherwise. -/
theorem claim8_obtain_semantics (v : List Int) (ok : Int → Counter → Bool)
    (pay : Counter) (s : LockState) (h : s.st = LState.noToken) :
    ((cget s.request s.ownerId ≤ cget pay s.ownerId →
        obtain_token v ok pay s = release v ok (adopt_state pay s)) ∧
     (cget pay s.ownerId < cget s.request s.ownerId →
        obtain_token v ok pay s = (adopt_state pay s, false, none))) ∧
    (adopt_state pay s).st = LState.tokenHeld ∧
    cget (adopt_state pay s).token s.ownerId = s.time ∧
    ∀ q, q ≠ s.ownerId → cget (adopt_state pay s).token q = cget pay q := by
  refine ⟨⟨?_, ?_⟩, rfl, cget_cset_self _ _ _, ?_⟩
  · intro hle
    simp only [obtain_token, adopt_state]
    rw [if_neg (not_lt.mpr hle)]
  · intro hlt
    simp only [obtain_token, adopt_state]
    rw [if_pos hlt]
  · intro q hq
    exact cget_cset_ne _ _ _ _ hq

/-- Witness for C8: peer 1 in the fresh `NO_TOKEN` state receives the
empty payload; its own request timestamp 0 does not exceed the incoming
record 0, so `obtain_token` runs `release()` on the adopted state. -/
theorem claim8_obtain_semantics_witness :
    obtain_token [] okNever [] (initState 1) =
      release [] okNever (adopt_state [] (initState 1)) :=
  (claim8_obtain_semantics [] okNever [] (initState 1) rfl).1.1 (by decide)

/-- Claim C9: after `DistributedLock.initialize` on the fresh state, a
peer with an empty membership set is in `TOKEN_PRESENT`, and a peer with
a non-empty membership set remains in `NO_TOKEN`. -/
theorem claim9_bootstrap (peers : List Int) (o : Int) :
    (peers = [] → (initLock peers (initState o)).st = LState.tokenPresent) ∧
    (peers ≠ [] → (initLock peers (initState o)).st = LState.noToken) := by
  constructor
  · intro h
    simp [h, initLock, initState]
  · intro h
    have hlen : peers.length ≠ 0 := fun h0 => h (List.length_eq_zero.mp h0)
    simp [initLock, hlen, initState]

/-- Witness for C9: peer 1 alone spawns in `TOKEN_PRESENT`; peer 2 that
knows peer 1 stays in `NO_TOKEN`. -/
theorem claim9_bootstrap_witness :
    (initLock [] (initState 1)).st = LState.tokenPresent ∧
    (initLock [1] (initState 2)).st = LState.noToken :=
  ⟨(claim9_bootstrap [] 1).1 rfl, (claim9_bootstrap [1] 2).2 (by decide)⟩

/-- Claim C10: whenever a forwarding attempt of `_check_token` reaches
the remote `obtain_token` call, the payload passed to that call has been
purged: every key it still carries is either this node's own id or an id
currently present in the membership set. -/
theorem claim10_payload_purged (v : List Int) (ok : Int → Counter → Bool)
    (s : LockState) (pid : Int) (pay : Counter)
    (h : (check_token v ok s).2.2 = some (pid, pay)) :
    ∀ k ∈ ckeys pay, k = s.ownerId ∨ k ∈ v := by
  have hpay : pay = (clean_token v s).token := by
    simp only [check_token] at h
    split at h
    · simp at h
    · cases hfind : find_target s with
      | none => rw [hfind] at h; simp at h
      | some pid2 =>
          rw [hfind] at h
          simp at h
          exact h.2.symm
  intro k hk
  rw [hpay] at hk
  simp only [clean_token, ckeys, List.mem_map] at hk
  obtain ⟨kv, hkv, rfl⟩ := hk
  have hq := (List.mem_filter.mp hkv).2
  simp at hq
  rcases hq with h1 | h2
  · exact Or.inl h1
  · exact Or.inr h2

/-- Witness for C10: for the concrete holder `stC10` (own id 1, stale
token entry for departed peer 3, live peer set {2}) the attempted send
carries the purged payload [(1, 2)], and its only key 1 is the holder's
own id. -/
theorem claim10_payload_purged_witness : (1 : Int) = stC10.ownerId ∨ (1 : Int) ∈ [(2 : Int)] :=
  claim10_payload_purged [2] okNever stC10 2 [(1, 2)] (by decide) 1 (by decide)
